import Mathlib

/-!
Verification of the array toolkit in `arrays_util.h`.

The C functions operate on caller-owned `int` buffers passed as a pointer
plus an explicit length.  We model a buffer as a `List Int` and a C `int`
index as an `Int`.  Reads and writes through an index are modelled by
`aget` and `aset`: an in-range access touches the corresponding list
element, and an out-of-range access (undefined behavior in C) reads 0 or
writes nothing.  All theorems below only ever evaluate accesses that the
source performs in range.

C `%` on the arguments that arise in the claims (non-negative operands) and
Lean `%` on `Int` agree, as do C `/` and Lean `/` there, so the loops are
transcribed with Lean's operators.
-/

namespace ArraysUtil

/-- Read `a[i]` through a C int index: in range it returns the element,
out of range (undefined behavior in the source) it returns 0. -/
def aget (a : List Int) (i : Int) : Int :=
  if 0 ≤ i then a.getD i.toNat 0 else 0

/-- Write `a[i] = v` through a C int index: out-of-range writes are dropped. -/
def aset (a : List Int) (i : Int) (v : Int) : List Int :=
  if 0 ≤ i then a.set i.toNat v else a

/-- Transcription of `swapNumbers` (arrays_util.h, lines 427-431):
`temp = arr[index1]; arr[index1] = arr[index2]; arr[index2] = temp;`. -/
def swapNumbers (a : List Int) (index1 index2 : Int) : List Int :=
  let temp := aget a index1
  let a1 := aset a index1 (aget a index2)
  aset a1 index2 temp

/-- Inner loop of `rotate` (lines 202-204):
`for (j = 0; j < n - 1; ++j) arr[j] = arr[j + 1];`. -/
def rotateShift (arr : List Int) (n j : Int) : List Int :=
  if j < n - 1 then rotateShift (aset arr j (aget arr (j + 1))) n (j + 1) else arr
termination_by (n - 1 - j).toNat
decreasing_by omega

/-- Outer loop of `rotate` (lines 200-206): `k` iterations, each saving
`arr[0]`, shifting the buffer down one slot and storing the saved value at
`arr[n-1]`. -/
def rotateLoop (arr : List Int) (n i k : Int) : List Int :=
  if i < k then
    let temp := aget arr 0
    let arr1 := rotateShift arr n 0
    rotateLoop (aset arr1 (n - 1) temp) n (i + 1) k
  else arr
termination_by (k - i).toNat
decreasing_by omega

/-- Transcription of `rotate` (lines 198-208). -/
def rotate (arr : List Int) (n k : Int) : List Int :=
  rotateLoop arr n 0 (k % n)

/-- Loop of `searchLIN` (lines 225-229):
`for (i = 0; i < n && index < 0; ++i) if (arr[i] == sr) index = i;`. -/
def searchLINLoop (arr : List Int) (n sr i index : Int) : Int :=
  if i < n ∧ index < 0 then
    searchLINLoop arr n sr (i + 1) (if aget arr i = sr then i else index)
  else index
termination_by (n - i).toNat
decreasing_by omega

/-- Transcription of `searchLIN` (lines 223-231). -/
def searchLIN (arr : List Int) (n sr : Int) : Int :=
  searchLINLoop arr n sr 0 (-1)

/-- Loop of `searchBIN` (lines 273-281).  The C local `mid` is read by the
loop guard before it is ever assigned, so its initial value is
indeterminate; it is passed in as the argument `mid`. -/
def searchBINLoop (arr : List Int) (sr start stop mid index : Int) : Int :=
  if start < stop ∧ index ≠ mid then
    let m := (start + stop) / 2
    if aget arr m = sr then searchBINLoop arr sr start stop m m
    else if aget arr m < sr then searchBINLoop arr sr (m + 1) stop m index
    else searchBINLoop arr sr start (m - 1) m index
  else index
termination_by 2 * (stop - start).toNat + (if index = mid then 0 else 1)
decreasing_by
  · have h := ‹start < stop ∧ index ≠ mid›
    simp only [if_true, if_neg h.2]
    omega
  · (repeat' split) <;> omega
  · (repeat' split) <;> omega

/-- Transcription of `searchBIN` (lines 270-283); `mid0` stands for the
indeterminate initial value of the uninitialized local `mid`. -/
def searchBIN (arr : List Int) (n sr mid0 : Int) : Int :=
  searchBINLoop arr sr 0 n mid0 (-1)

/-- Loop of `reverse` (lines 300-304): for `i < n / 2` swap
`arr[i]` and `arr[n - i - 1]`. -/
def reverseLoop (arr : List Int) (n i : Int) : List Int :=
  if i < n / 2 then reverseLoop (swapNumbers arr i (n - i - 1)) n (i + 1) else arr
termination_by (n / 2 - i).toNat
decreasing_by omega

/-- Transcription of `reverse` (lines 299-306). -/
def reverse (arr : List Int) (n : Int) : List Int :=
  reverseLoop arr n 0

/-- Loop of `MAX_count` (lines 323-328).  Note that the C code never
updates the local `maximum`: on a strictly larger element it only resets
`count` to 1. -/
def maxCountLoop (arr : List Int) (n maximum i count : Int) : Int :=
  if i < n then
    maxCountLoop arr n maximum (i + 1)
      (if maximum < aget arr i then 1
       else if aget arr i = maximum then count + 1 else count)
  else count
termination_by (n - i).toNat
decreasing_by omega

/-- Transcription of `MAX_count` (lines 320-330): `maximum = arr[0]`,
`count = 0`, loop from `i = 1`. -/
def MAX_count (arr : List Int) (n : Int) : Int :=
  maxCountLoop arr n (aget arr 0) 1 0

/-- Loop of `sumAllElements` (lines 530-532). -/
def sumLoop (arr : List Int) (n i s : Int) : Int :=
  if i < n then sumLoop arr n (i + 1) (s + aget arr i) else s
termination_by (n - i).toNat
decreasing_by omega

/-- Transcription of `sumAllElements` (lines 527-534): the accumulated sum
is computed and then discarded, the function returns the literal 0. -/
def sumAllElements (arr : List Int) (n : Int) : Int :=
  let _sum := sumLoop arr n 0 0
  0

/-- Loop of `checkForSort` (lines 552-556). -/
def checkForSortLoop (arr : List Int) (n i : Int) : Bool :=
  if i < n then
    if aget arr i < aget arr (i - 1) then false
    else checkForSortLoop arr n (i + 1)
  else true
termination_by (n - i).toNat
decreasing_by omega

/-- Transcription of `checkForSort` (lines 550-559). -/
def checkForSort (arr : List Int) (n : Int) : Bool :=
  checkForSortLoop arr n 1

/-- First loop of `concatenateTwoArrays` (lines 577-581): while
`i < size1 && i < size2`, copy `arr1[i]` to slot `i` and `arr2[i]` to slot
`size1 + i`.  Returns the buffer together with the final `i`. -/
def concatLoopBoth (arr1 arr2 : List Int) (size1 size2 : Int)
    (buf : List Int) (i : Int) : List Int × Int :=
  if i < size1 ∧ i < size2 then
    concatLoopBoth arr1 arr2 size1 size2
      (aset (aset buf i (aget arr1 i)) (size1 + i) (aget arr2 i)) (i + 1)
  else (buf, i)
termination_by (size1 - i).toNat
decreasing_by omega

/-- Second loop of `concatenateTwoArrays` (lines 582-586): copy the tail of
`arr1`. -/
def concatTail1 (arr1 : List Int) (size1 : Int) (buf : List Int) (i : Int) :
    List Int × Int :=
  if i < size1 then concatTail1 arr1 size1 (aset buf i (aget arr1 i)) (i + 1)
  else (buf, i)
termination_by (size1 - i).toNat
decreasing_by omega

/-- Third loop of `concatenateTwoArrays` (lines 587-591): copy the tail of
`arr2`. -/
def concatTail2 (arr2 : List Int) (size1 size2 : Int) (buf : List Int) (i : Int) :
    List Int :=
  if i < size2 then concatTail2 arr2 size1 size2 (aset buf (size1 + i) (aget arr2 i)) (i + 1)
  else buf
termination_by (size2 - i).toNat
decreasing_by omega

/-- Transcription of `concatenateTwoArrays` (lines 573-594).  The
`malloc`ed buffer has indeterminate contents; it is modelled as zero
filled, and the theorems show every slot is overwritten. -/
def concatenateTwoArrays (arr1 : List Int) (size1 : Int) (arr2 : List Int)
    (size2 : Int) : List Int :=
  let new_array := List.replicate (size1 + size2).toNat 0
  let r1 := concatLoopBoth arr1 arr2 size1 size2 new_array 0
  let r2 := concatTail1 arr1 size1 r1.1 r1.2
  concatTail2 arr2 size1 size2 r2.1 r2.2

/-- Loop of `firstIndexOf` (lines 606-610). -/
def firstIndexOfLoop (arr : List Int) (n element i : Int) : Int :=
  if i < n then
    if aget arr i = element then i else firstIndexOfLoop arr n element (i + 1)
  else -1
termination_by (n - i).toNat
decreasing_by omega

/-- Transcription of `firstIndexOf` (lines 604-613). -/
def firstIndexOf (arr : List Int) (n element : Int) : Int :=
  firstIndexOfLoop arr n element 0

/-- Two's-complement 32-bit pattern of an `int` value. -/
def toBits32 (v : Int) : Nat := (v % (2 ^ 32 : Int)).toNat

/-- The `int` value of a 32-bit two's-complement pattern. -/
def ofBits32 (p : Nat) : Int := if p < 2 ^ 31 then (p : Int) else (p : Int) - 2 ^ 32

/-- Arithmetic shift right by 31 of a 32-bit `int`, i.e. the C expression
`val >> 31`: floor division by 2^31, giving 0 for non-negative values and
-1 for negative in-range values. -/
def asr31 (v : Int) : Int := v / 2 ^ 31

/-- Bitwise xor of two `int` values, computed on their 32-bit
two's-complement patterns. -/
def xor32 (a b : Int) : Int := ofBits32 (toBits32 a ^^^ toBits32 b)

/-- Loop of `getHashCodeOf` (lines 631-636): the accumulator is an
`unsigned long long`, modelled as a natural number reduced modulo 2^64;
the `int` operand is converted to `unsigned long long` by reduction modulo
2^64 as well. -/
def hashLoop (arr : List Int) (n i : Int) (hash : Nat) : Nat :=
  if i < n then
    let val := aget arr i
    let val2 := xor32 val (asr31 val)
    hashLoop arr n (i + 1) ((hash * 19 + (val2 % (2 ^ 64 : Int)).toNat) % 2 ^ 64)
  else hash
termination_by (n - i).toNat
decreasing_by omega

/-- Transcription of `getHashCodeOf` (lines 626-639); the array pointer may
be NULL, modelled by `Option`. -/
def getHashCodeOf (arr : Option (List Int)) (n : Int) : Nat :=
  match arr with
  | none => 0
  | some a => hashLoop a n 0 1

/-- Loop of `pivotPartition` (lines 452-459): a single scan with three
regions; a right swap does not advance the scan pointer. -/
def partLoop (arr : List Int) (low high it lp rp : Int) : List Int × Int × Int :=
  if it ≤ rp then
    if aget arr it < aget arr low then
      partLoop (swapNumbers arr it lp) low high (it + 1) (lp + 1) rp
    else if aget arr high < aget arr it then
      partLoop (swapNumbers arr it rp) low high it lp (rp - 1)
    else
      partLoop arr low high (it + 1) lp rp
  else (arr, lp, rp)
termination_by (rp + 1 - it).toNat
decreasing_by all_goals omega

/-- The scan loop keeps its index variables inside the scanned window; this
arithmetic fact justifies termination of the recursion below. -/
theorem partLoop_bounds (arr : List Int) (low high it lp rp : Int) :
    lp ≤ it → it ≤ rp + 1 →
    lp ≤ (partLoop arr low high it lp rp).2.1 ∧
    (partLoop arr low high it lp rp).2.1 ≤ (partLoop arr low high it lp rp).2.2 + 1 ∧
    (partLoop arr low high it lp rp).2.2 ≤ rp := by
  induction arr, low, high, it, lp, rp using partLoop.induct with
  | case1 arr low high it lp rp hle hlt ih =>
    intro h1 h2
    rw [partLoop, if_pos hle, if_pos hlt]
    have := ih (by omega) (by omega)
    omega
  | case2 arr low high it lp rp hle hge hgt ih =>
    intro h1 h2
    rw [partLoop, if_pos hle, if_neg hge, if_pos hgt]
    have := ih (by omega) (by omega)
    omega
  | case3 arr low high it lp rp hle hge hng ih =>
    intro h1 h2
    rw [partLoop, if_pos hle, if_neg hge, if_neg hng]
    have := ih (by omega) (by omega)
    omega
  | case4 arr low high it lp rp hnle =>
    intro h1 h2
    rw [partLoop, if_neg hnle]
    dsimp only
    omega

/-- Transcription of `pivotPartition` (lines 444-466): the returned pair of
indices is the `record` struct written through the out parameter. -/
def pivotPartition (arr : List Int) (low high : Int) : List Int × Int × Int :=
  let arr0 := if aget arr high < aget arr low then swapNumbers arr low high else arr
  let res := partLoop arr0 low high (low + 1) (low + 1) (high - 1)
  let leftPivot := res.2.1 - 1
  let rightPivot := res.2.2 + 1
  let arr1 := swapNumbers res.1 low leftPivot
  let arr2 := swapNumbers arr1 high rightPivot
  (arr2, leftPivot, rightPivot)

/-- On a window with at least two cells the pivot indices land strictly
inside `[low, high]`; this justifies termination of `dualPivotQuickSort`. -/
theorem pivotPartition_bounds (arr : List Int) (low high : Int) (h : low < high) :
    low ≤ (pivotPartition arr low high).2.1 ∧
    (pivotPartition arr low high).2.1 < (pivotPartition arr low high).2.2 ∧
    (pivotPartition arr low high).2.2 ≤ high := by
  unfold pivotPartition
  have hb := partLoop_bounds
    (if aget arr high < aget arr low then swapNumbers arr low high else arr)
    low high (low + 1) (low + 1) (high - 1) le_rfl (by omega)
  dsimp only
  omega

/-- Transcription of `dualPivotQuickSort` (lines 481-491).  The C code
first initializes the local `record` to `{-1, -1}`, but those values are
dead: they are overwritten by `pivotPartition` before any use. -/
def dualPivotQuickSort (arr : List Int) (low high : Int) : List Int :=
  if low ≥ high then arr
  else
    let res := pivotPartition arr low high
    let a1 := dualPivotQuickSort res.1 low (res.2.1 - 1)
    let a2 := dualPivotQuickSort a1 (res.2.1 + 1) (res.2.2 - 1)
    dualPivotQuickSort a2 (res.2.2 + 1) high
termination_by (high - low).toNat
decreasing_by
  · have hb := pivotPartition_bounds arr low high (by omega)
    omega
  · have hb := pivotPartition_bounds arr low high (by omega)
    omega
  · have hb := pivotPartition_bounds arr low high (by omega)
    omega

/-- The segment `[lo, hi]` of the buffer is sorted: each adjacent pair is
ordered. -/
def sortedAdj (a : List Int) (lo hi : Int) : Prop :=
  ∀ x : Int, lo ≤ x → x < hi → aget a x ≤ aget a (x + 1)

/-- The segment `[lo, hi]` of the buffer is sorted: any two cells in order
of position are in order of value. -/
def sortedSeg (a : List Int) (lo hi : Int) : Prop :=
  ∀ i j : Int, lo ≤ i → i ≤ j → j ≤ hi → aget a i ≤ aget a j

/-- Written from the spec's words for `indexOf`/`searchLIN`: the smallest
index holding the element, or -1 when no element matches. -/
def specIndexOf (arr : List Int) (e : Int) : Int :=
  match arr.findIdx? (fun x => x == e) with
  | some i => (i : Int)
  | none => -1

/-- Written from the claim's words for `getMaxOccurrence`: a running
maximum that starts at the head and is updated on strictly larger
elements, the count resetting to 1 on each new maximum and incrementing on
each later element equal to the running maximum. -/
def specMaxCount (arr : List Int) : Int :=
  (arr.tail.foldl
    (fun s x => if s.1 < x then (x, 1) else if x = s.1 then (s.1, s.2 + 1) else s)
    (arr.headD 0, 1)).2

/-- The behavior `MAX_count` actually implements, phrased without the
loop: every element is compared against `arr[0]` (the local `maximum` is
never updated), so the result is the number of occurrences of `arr[0]`
after the last element strictly greater than `arr[0]`, plus 1 for that
element itself; when no element of the tail exceeds `arr[0]` it is the
number of occurrences of `arr[0]` in the whole tail. -/
def maxCountAmendedSpec (arr : List Int) : Int :=
  let a0 := arr.headD 0
  let t := arr.tail
  (if t.any (fun x => a0 < x) then 1 else 0) +
    ((t.reverse.takeWhile (fun x => x ≤ a0)).count a0 : Int)

/-- Written from the claim's words for `hashCode`: seed 1, then for each
value `v` the accumulator becomes `h * 19 + (v xor (v asr 31))` modulo
2^64, where for in-range `int` values the xor term is `v` itself for
non-negative `v` and the bitwise complement `-v - 1` for negative `v`. -/
def hashSpecStep (h : Nat) (v : Int) : Nat :=
  (h * 19 + (if 0 ≤ v then v.toNat else (-v - 1).toNat)) % 2 ^ 64

/-- Spec-side rolling hash over a whole list. -/
def hashSpec (l : List Int) : Nat :=
  l.foldl hashSpecStep 1

/-! ### Lemmas about the access primitives -/

theorem getD_set_self (a : List Int) (n : Nat) (v : Int) (h : n < a.length) :
    (a.set n v).getD n 0 = v := by
  induction a generalizing n with
  | nil => simp at h
  | cons x xs ih =>
    cases n with
    | zero => simp [List.set]
    | succ m =>
      simp only [List.set, List.getD_cons_succ]
      exact ih m (by simpa using h)

theorem getD_set_ne (a : List Int) (m n : Nat) (v : Int) (h : m ≠ n) :
    (a.set m v).getD n 0 = a.getD n 0 := by
  induction a generalizing m n with
  | nil => simp [List.set]
  | cons x xs ih =>
    cases m with
    | zero =>
      cases n with
      | zero => exact absurd rfl h
      | succ k => simp [List.set]
    | succ m1 =>
      cases n with
      | zero => simp [List.set]
      | succ k =>
        simp only [List.set, List.getD_cons_succ]
        exact ih m1 k (by omega)

theorem set_getD_self (a : List Int) (n : Nat) : a.set n (a.getD n 0) = a := by
  induction a generalizing n with
  | nil => simp [List.set]
  | cons x xs ih =>
    cases n with
    | zero => simp [List.set]
    | succ m =>
      simp only [List.set, List.getD_cons_succ]
      rw [ih m]

theorem length_aset (a : List Int) (i v : Int) : (aset a i v).length = a.length := by
  unfold aset
  split <;> simp

theorem aget_aset_self (a : List Int) (i v : Int) (h0 : 0 ≤ i)
    (h1 : i < (a.length : Int)) : aget (aset a i v) i = v := by
  unfold aget aset
  rw [if_pos h0, if_pos h0]
  exact getD_set_self a i.toNat v (by omega)

theorem aget_aset_ne (a : List Int) (i x v : Int) (h : x ≠ i) :
    aget (aset a i v) x = aget a x := by
  unfold aget aset
  by_cases hx : 0 ≤ x
  · by_cases hi : 0 ≤ i
    · rw [if_pos hi, if_pos hx, if_pos hx]
      exact getD_set_ne a i.toNat x.toNat v (by omega)
    · rw [if_neg hi]
  · by_cases hi : 0 ≤ i
    · rw [if_pos hi, if_neg hx, if_neg hx]
    · rw [if_neg hi]

theorem aset_aget_self (a : List Int) (i : Int) : aset a i (aget a i) = a := by
  unfold aget aset
  by_cases hi : 0 ≤ i
  · rw [if_pos hi, if_pos hi]
    exact set_getD_self a i.toNat
  · rw [if_neg hi]

theorem swap_self (a : List Int) (i : Int) : swapNumbers a i i = a := by
  unfold swapNumbers
  dsimp only
  rw [aset_aget_self]
  exact aset_aget_self a i

theorem length_swap (a : List Int) (i j : Int) :
    (swapNumbers a i j).length = a.length := by
  unfold swapNumbers
  dsimp only
  rw [length_aset, length_aset]

theorem aget_swap_ne (a : List Int) (i j x : Int) (hi : x ≠ i) (hj : x ≠ j) :
    aget (swapNumbers a i j) x = aget a x := by
  unfold swapNumbers
  dsimp only
  rw [aget_aset_ne _ _ _ _ hj, aget_aset_ne _ _ _ _ hi]

theorem aget_swap_left (a : List Int) (i j : Int) (hi0 : 0 ≤ i)
    (hi1 : i < (a.length : Int)) (hj0 : 0 ≤ j) (hj1 : j < (a.length : Int)) :
    aget (swapNumbers a i j) i = aget a j := by
  unfold swapNumbers
  dsimp only
  by_cases hij : i = j
  · subst hij
    rw [aget_aset_self _ _ _ hi0 (by rw [length_aset]; exact hi1)]
  · rw [aget_aset_ne _ _ _ _ (by omega : i ≠ j)]
    exact aget_aset_self a i (aget a j) hi0 hi1

theorem aget_swap_right (a : List Int) (i j : Int) (hj0 : 0 ≤ j)
    (hj1 : j < (a.length : Int)) :
    aget (swapNumbers a i j) j = aget a i := by
  unfold swapNumbers
  dsimp only
  rw [aget_aset_self _ _ _ hj0 (by rw [length_aset]; exact hj1)]



/-! ### Claim theorems: the directly computational claims -/

/-- C4: for every array `arr` and length `n`, `sumAllElements arr n` (the
table's `sum`) returns 0 regardless of the contents: the accumulated sum is
computed but never returned. -/
theorem sumAllElements_eq_zero : ∀ (arr : List Int) (n : Int), sumAllElements arr n = 0 := by
  intro arr n
  rfl

/-- C10: for every length `n`, `getHashCodeOf NULL n` returns 0, which is
distinguishable from the hash 1 of the empty array. -/
theorem getHashCodeOf_null : ∀ n : Int,
    getHashCodeOf none n = 0 ∧ getHashCodeOf none n ≠ getHashCodeOf (some []) 0 := by
  intro n
  refine ⟨rfl, ?_⟩
  rw [getHashCodeOf, getHashCodeOf, hashLoop]
  norm_num

/-- C2 (failing input): `rotate [1,2,3,4,5] 5 2` performs two single-step
rotations to the LEFT, producing `[3,4,5,1,2]`, not the right rotation
`[4,5,1,2,3]` promised by the claim and by the function's own
documentation. -/
theorem rotate_left_not_right :
    rotate [1, 2, 3, 4, 5] 5 2 = [3, 4, 5, 1, 2] ∧
    rotate [1, 2, 3, 4, 5] 5 2 ≠ [4, 5, 1, 2, 3] := by
  have h : rotate [1, 2, 3, 4, 5] 5 2 = [3, 4, 5, 1, 2] := by
    simp [rotate, rotateLoop, rotateShift, aget, aset]
  exact ⟨h, by rw [h]; decide⟩

/-- C1 (failing input): the array `[1, 2]` is sorted in ascending order and
contains the value 1, yet `searchBIN [1,2] 2 1` returns -1 for every
possible initial value of the uninitialized local `mid`, contradicting the
claim that a present value is always found. -/
theorem searchBIN_misses_present_value :
    checkForSort [1, 2] 2 = true ∧ aget [1, 2] 0 = 1 ∧
    ∀ mid0 : Int, searchBIN [1, 2] 2 1 mid0 = -1 := by
  refine ⟨by simp [checkForSort, checkForSortLoop, aget], by simp [aget], ?_⟩
  intro mid0
  unfold searchBIN
  by_cases h : mid0 = -1
  · rw [searchBINLoop]
    simp [h]
  · rw [searchBINLoop]
    rw [if_pos ⟨by norm_num, by omega⟩]
    norm_num [aget]
    rw [searchBINLoop]
    norm_num


/-! ### C9: firstIndexOf agrees with searchLIN and with the spec contract -/

theorem searchLINLoop_eq_firstIndexOfLoop (arr : List Int) (n sr : Int) :
    ∀ (fuel : Nat) (i : Int), 0 ≤ i → (n - i).toNat = fuel →
      searchLINLoop arr n sr i (-1) = firstIndexOfLoop arr n sr i := by
  intro fuel
  induction fuel with
  | zero =>
    intro i h0 hf
    rw [searchLINLoop, firstIndexOfLoop]
    rw [if_neg (by omega : ¬(i < n ∧ (-1 : Int) < 0)), if_neg (by omega : ¬ i < n)]
  | succ f ih =>
    intro i h0 hf
    have hin : i < n := by omega
    rw [searchLINLoop, firstIndexOfLoop, if_pos ⟨hin, by norm_num⟩, if_pos hin]
    by_cases hm : aget arr i = sr
    · rw [if_pos hm, if_pos hm]
      rw [searchLINLoop, if_neg (by omega : ¬(i + 1 < n ∧ i < 0))]
    · rw [if_neg hm, if_neg hm]
      exact ih (i + 1) (by omega) (by omega)

theorem firstIndexOfLoop_eq_findIdx (arr : List Int) (e : Int) :
    ∀ (fuel : Nat) (i : Int), 0 ≤ i → arr.length - i.toNat = fuel →
      firstIndexOfLoop arr (arr.length : Int) e i =
      (match List.findIdx? (fun x => x == e) (arr.drop i.toNat) i.toNat with
       | some k => (k : Int)
       | none => -1) := by
  intro fuel
  induction fuel with
  | zero =>
    intro i h0 hf
    have hge : arr.length ≤ i.toNat := by omega
    rw [firstIndexOfLoop, if_neg (by omega : ¬ i < (arr.length : Int))]
    rw [List.drop_eq_nil_of_le hge, List.findIdx?_nil]
  | succ f ih =>
    intro i h0 hf
    have hlt : i.toNat < arr.length := by omega
    have ha : aget arr i = arr[i.toNat] := by
      unfold aget
      rw [if_pos h0]
      exact List.getD_eq_getElem arr 0 hlt
    rw [firstIndexOfLoop, if_pos (by omega : i < (arr.length : Int))]
    rw [List.drop_eq_getElem_cons hlt, List.findIdx?_cons]
    by_cases hm : arr[i.toNat] = e
    · rw [if_pos (by rw [ha]; exact hm), if_pos (by simp [hm])]
      show i = (i.toNat : Int)
      omega
    · rw [if_neg (by rw [ha]; exact hm), if_neg (by simp [hm])]
      have h1 : (i + 1).toNat = i.toNat + 1 := by omega
      have := ih (i + 1) (by omega) (by omega)
      rw [h1] at this
      exact this

/-- C9: for every array, length and element, `firstIndexOf` returns exactly
the same result as `searchLIN`; moreover on the array's true length both
return the smallest matching index, or -1 when no element matches, as the
spec-side `specIndexOf` computes it. -/
theorem firstIndexOf_eq_searchLIN :
    ∀ (arr : List Int) (n e : Int),
      firstIndexOf arr n e = searchLIN arr n e ∧
      firstIndexOf arr (arr.length : Int) e = specIndexOf arr e := by
  intro arr n e
  constructor
  · rw [firstIndexOf, searchLIN]
    exact (searchLINLoop_eq_firstIndexOfLoop arr n e (n - 0).toNat 0 le_rfl rfl).symm
  · rw [firstIndexOf, specIndexOf]
    have := firstIndexOfLoop_eq_findIdx arr e (arr.length - (0 : Int).toNat) 0 le_rfl rfl
    rw [this]
    rw [Int.toNat_zero, List.drop_zero]


/-! ### C7: reverse is an involution -/

theorem eq_of_aget_eq (a b : List Int) (hlen : a.length = b.length)
    (h : ∀ x : Int, 0 ≤ x → x < (a.length : Int) → aget a x = aget b x) : a = b := by
  apply List.ext_getElem hlen
  intro m h1 h2
  have := h (m : Int) (by omega) (by omega)
  unfold aget at this
  rw [if_pos (by omega : (0 : Int) ≤ (m : Int))] at this
  rw [Int.toNat_natCast] at this
  rw [List.getD_eq_getElem a 0 h1, List.getD_eq_getElem b 0 h2] at this
  exact this

theorem reverseLoop_get (n : Int) :
    ∀ (fuel : Nat) (arr : List Int), n = (arr.length : Int) → ∀ i : Int, 0 ≤ i →
      (n / 2 - i).toNat = fuel →
      (reverseLoop arr n i).length = arr.length ∧
      ∀ x : Int, 0 ≤ x → x < n →
        aget (reverseLoop arr n i) x =
          if i ≤ x ∧ x ≤ n - 1 - i then aget arr (n - 1 - x) else aget arr x := by
  intro fuel
  induction fuel with
  | zero =>
    intro arr hn i h0 hf
    rw [reverseLoop, if_neg (by omega : ¬ i < n / 2)]
    refine ⟨rfl, ?_⟩
    intro x hx0 hxn
    split
    · next hw =>
      have : n - 1 - x = x := by omega
      rw [this]
    · rfl
  | succ f ih =>
    intro arr hn i h0 hf
    have hiw : i < n / 2 := by omega
    rw [reverseLoop, if_pos hiw]
    have hlen2 : n = ((swapNumbers arr i (n - i - 1)).length : Int) := by
      rw [length_swap]; exact hn
    have hres := ih (swapNumbers arr i (n - i - 1)) hlen2 (i + 1) (by omega) (by omega)
    refine ⟨by rw [hres.1, length_swap], ?_⟩
    intro x hx0 hxn
    rw [hres.2 x hx0 hxn]
    have hib : 0 ≤ i ∧ i < (arr.length : Int) := by omega
    have hmb : 0 ≤ n - i - 1 ∧ n - i - 1 < (arr.length : Int) := by omega
    by_cases hxi : x = i
    · subst hxi
      rw [if_neg (by omega : ¬ (x + 1 ≤ x ∧ x ≤ n - 1 - (x + 1)))]
      rw [if_pos (by omega : x ≤ x ∧ x ≤ n - 1 - x)]
      rw [aget_swap_left arr x (n - x - 1) hib.1 hib.2 hmb.1 hmb.2]
      have : n - 1 - x = n - x - 1 := by omega
      rw [this]
    · by_cases hxm : x = n - 1 - i
      · rw [if_neg (by omega : ¬ (i + 1 ≤ x ∧ x ≤ n - 1 - (i + 1)))]
        rw [if_pos (by omega : i ≤ x ∧ x ≤ n - 1 - i)]
        have hxm2 : x = n - i - 1 := by omega
        rw [hxm2]
        rw [aget_swap_right arr i (n - i - 1) hmb.1 hmb.2]
        have : n - 1 - (n - i - 1) = i := by omega
        rw [this]
      · by_cases hin : i + 1 ≤ x ∧ x ≤ n - 1 - (i + 1)
        · rw [if_pos hin, if_pos (by omega : i ≤ x ∧ x ≤ n - 1 - i)]
          rw [aget_swap_ne arr i (n - i - 1) (n - 1 - x) (by omega) (by omega)]
        · rw [if_neg hin, if_neg (by omega : ¬ (i ≤ x ∧ x ≤ n - 1 - i))]
          rw [aget_swap_ne arr i (n - i - 1) x (by omega) (by omega)]

theorem reverse_length (arr : List Int) : (reverse arr (arr.length : Int)).length = arr.length := by
  rw [reverse]
  exact (reverseLoop_get (arr.length : Int) ((arr.length : Int) / 2 - 0).toNat arr rfl 0 le_rfl rfl).1

theorem reverse_get (arr : List Int) (x : Int) (h0 : 0 ≤ x) (hx : x < (arr.length : Int)) :
    aget (reverse arr (arr.length : Int)) x = aget arr ((arr.length : Int) - 1 - x) := by
  rw [reverse]
  have := (reverseLoop_get (arr.length : Int) ((arr.length : Int) / 2 - 0).toNat arr rfl 0 le_rfl rfl).2
  rw [this x h0 hx, if_pos (by omega : 0 ≤ x ∧ x ≤ (arr.length : Int) - 1 - 0)]

/-- C7: reversing an array twice (with `n` the array's length) restores the
original contents: `reverse (reverse A n) n = A`. -/
theorem reverse_reverse_eq :
    ∀ A : List Int, reverse (reverse A (A.length : Int)) (A.length : Int) = A := by
  intro A
  have hlen : (reverse A (A.length : Int)).length = A.length := reverse_length A
  have hlen2 : (reverse (reverse A (A.length : Int)) (A.length : Int)).length = A.length := by
    have h2 : (A.length : Int) = ((reverse A (A.length : Int)).length : Int) := by rw [hlen]
    nth_rewrite 2 [h2]
    rw [reverse_length, hlen]
  apply eq_of_aget_eq _ _ hlen2
  intro x hx0 hxlen
  rw [hlen2] at hxlen
  have hcast : (A.length : Int) = ((reverse A (A.length : Int)).length : Int) := by rw [hlen]
  nth_rewrite 2 [hcast]
  rw [reverse_get (reverse A (A.length : Int)) x hx0 (by rw [← hcast]; exact hxlen)]
  rw [← hcast]
  rw [reverse_get A ((A.length : Int) - 1 - x) (by omega) (by omega)]
  have : (A.length : Int) - 1 - ((A.length : Int) - 1 - x) = x := by omega
  rw [this]


/-! ### C6: concatenation -/

theorem aget_append_left (a b : List Int) (x : Int) (h0 : 0 ≤ x)
    (h : x < (a.length : Int)) : aget (a ++ b) x = aget a x := by
  unfold aget
  rw [if_pos h0, if_pos h0]
  exact List.getD_append a b 0 x.toNat (by omega)

theorem aget_append_right (a b : List Int) (x : Int) (h : (a.length : Int) ≤ x)
    (h0 : 0 ≤ x) : aget (a ++ b) x = aget b (x - (a.length : Int)) := by
  unfold aget
  rw [if_pos h0, if_pos (by omega : (0 : Int) ≤ x - (a.length : Int))]
  rw [List.getD_append_right a b 0 x.toNat (by omega)]
  congr 1
  omega

theorem concatLoopBoth_char :
    ∀ (fuel : Nat) (arr1 arr2 : List Int) (size1 size2 : Int) (buf : List Int) (i : Int),
      0 ≤ i → i ≤ min size1 size2 → size1 + size2 ≤ (buf.length : Int) →
      (min size1 size2 - i).toNat = fuel →
      (concatLoopBoth arr1 arr2 size1 size2 buf i).1.length = buf.length ∧
      (concatLoopBoth arr1 arr2 size1 size2 buf i).2 = min size1 size2 ∧
      ∀ x : Int,
        aget (concatLoopBoth arr1 arr2 size1 size2 buf i).1 x =
          if i ≤ x ∧ x < min size1 size2 then aget arr1 x
          else if size1 + i ≤ x ∧ x < size1 + min size1 size2 then aget arr2 (x - size1)
          else aget buf x := by
  intro fuel
  induction fuel with
  | zero =>
    intro arr1 arr2 size1 size2 buf i h0 hmin hlen hf
    rw [concatLoopBoth, if_neg (by omega : ¬ (i < size1 ∧ i < size2))]
    refine ⟨rfl, by dsimp only; omega, ?_⟩
    intro x
    dsimp only
    rw [if_neg (by omega : ¬ (i ≤ x ∧ x < min size1 size2)),
        if_neg (by omega : ¬ (size1 + i ≤ x ∧ x < size1 + min size1 size2))]
  | succ f ih =>
    intro arr1 arr2 size1 size2 buf i h0 hmin hlen hf
    have hg : i < size1 ∧ i < size2 := by omega
    rw [concatLoopBoth, if_pos hg]
    have hlb2 : (aset (aset buf i (aget arr1 i)) (size1 + i) (aget arr2 i)).length = buf.length := by
      rw [length_aset, length_aset]
    have IH := ih arr1 arr2 size1 size2
      (aset (aset buf i (aget arr1 i)) (size1 + i) (aget arr2 i)) (i + 1)
      (by omega) (by omega) (by rw [hlb2]; exact hlen) (by omega)
    have hb2 : ∀ x : Int,
        aget (aset (aset buf i (aget arr1 i)) (size1 + i) (aget arr2 i)) x =
          if x = size1 + i then aget arr2 i
          else if x = i then aget arr1 i else aget buf x := by
      intro x
      by_cases hx2 : x = size1 + i
      · subst hx2
        rw [if_pos rfl]
        exact aget_aset_self _ _ _ (by omega) (by rw [length_aset]; omega)
      · rw [if_neg hx2, aget_aset_ne _ _ _ _ hx2]
        by_cases hx1 : x = i
        · subst hx1
          rw [if_pos rfl]
          exact aget_aset_self _ _ _ (by omega) (by omega)
        · rw [if_neg hx1, aget_aset_ne _ _ _ _ hx1]
    refine ⟨by rw [IH.1, hlb2], by rw [IH.2.1], ?_⟩
    intro x
    rw [IH.2.2 x, hb2 x]
    split_ifs <;> first | rfl | omega | (congr 1; omega)

theorem concatTail1_char :
    ∀ (fuel : Nat) (arr1 : List Int) (size1 : Int) (buf : List Int) (i : Int),
      0 ≤ i → size1 ≤ (buf.length : Int) → (size1 - i).toNat = fuel →
      (concatTail1 arr1 size1 buf i).1.length = buf.length ∧
      (concatTail1 arr1 size1 buf i).2 = max i size1 ∧
      ∀ x : Int,
        aget (concatTail1 arr1 size1 buf i).1 x =
          if i ≤ x ∧ x < size1 then aget arr1 x else aget buf x := by
  intro fuel
  induction fuel with
  | zero =>
    intro arr1 size1 buf i h0 hlen hf
    rw [concatTail1, if_neg (by omega : ¬ i < size1)]
    refine ⟨rfl, by dsimp only; omega, ?_⟩
    intro x
    dsimp only
    rw [if_neg (by omega : ¬ (i ≤ x ∧ x < size1))]
  | succ f ih =>
    intro arr1 size1 buf i h0 hlen hf
    have hg : i < size1 := by omega
    rw [concatTail1, if_pos hg]
    have IH := ih arr1 size1 (aset buf i (aget arr1 i)) (i + 1)
      (by omega) (by rw [length_aset]; exact hlen) (by omega)
    have hb2 : ∀ x : Int,
        aget (aset buf i (aget arr1 i)) x =
          if x = i then aget arr1 i else aget buf x := by
      intro x
      by_cases hx : x = i
      · subst hx
        rw [if_pos rfl]
        exact aget_aset_self _ _ _ (by omega) (by omega)
      · rw [if_neg hx, aget_aset_ne _ _ _ _ hx]
    refine ⟨by rw [IH.1, length_aset], by rw [IH.2.1]; omega, ?_⟩
    intro x
    rw [IH.2.2 x, hb2 x]
    split_ifs <;> first | rfl | omega | (congr 1; omega)

theorem concatTail2_char :
    ∀ (fuel : Nat) (arr2 : List Int) (size1 size2 : Int) (buf : List Int) (i : Int),
      0 ≤ i → 0 ≤ size1 → size1 + size2 ≤ (buf.length : Int) → (size2 - i).toNat = fuel →
      (concatTail2 arr2 size1 size2 buf i).length = buf.length ∧
      ∀ x : Int,
        aget (concatTail2 arr2 size1 size2 buf i) x =
          if size1 + i ≤ x ∧ x < size1 + size2 then aget arr2 (x - size1)
          else aget buf x := by
  intro fuel
  induction fuel with
  | zero =>
    intro arr2 size1 size2 buf i h0 hs1 hlen hf
    rw [concatTail2, if_neg (by omega : ¬ i < size2)]
    refine ⟨rfl, ?_⟩
    intro x
    rw [if_neg (by omega : ¬ (size1 + i ≤ x ∧ x < size1 + size2))]
  | succ f ih =>
    intro arr2 size1 size2 buf i h0 hs1 hlen hf
    have hg : i < size2 := by omega
    rw [concatTail2, if_pos hg]
    have IH := ih arr2 size1 size2 (aset buf (size1 + i) (aget arr2 i)) (i + 1)
      (by omega) hs1 (by rw [length_aset]; exact hlen) (by omega)
    have hb2 : ∀ x : Int,
        aget (aset buf (size1 + i) (aget arr2 i)) x =
          if x = size1 + i then aget arr2 i else aget buf x := by
      intro x
      by_cases hx : x = size1 + i
      · subst hx
        rw [if_pos rfl]
        exact aget_aset_self _ _ _ (by omega) (by omega)
      · rw [if_neg hx, aget_aset_ne _ _ _ _ hx]
    refine ⟨by rw [IH.1, length_aset], ?_⟩
    intro x
    rw [IH.2 x, hb2 x]
    split_ifs <;> first | rfl | omega | (congr 1; omega)

/-- C6: for all arrays, concatenation returns a buffer of length
`size1 + size2` equal to `arr1` followed by `arr2`. -/
theorem concatenateTwoArrays_eq_append :
    ∀ arr1 arr2 : List Int,
      concatenateTwoArrays arr1 (arr1.length : Int) arr2 (arr2.length : Int) = arr1 ++ arr2 := by
  intro arr1 arr2
  unfold concatenateTwoArrays
  dsimp only
  set s1 : Int := (arr1.length : Int) with hs1
  set s2 : Int := (arr2.length : Int) with hs2
  have hbuf : ((List.replicate (s1 + s2).toNat (0 : Int)).length : Int) = s1 + s2 := by
    rw [List.length_replicate]; omega
  have H1 := concatLoopBoth_char (min s1 s2 - 0).toNat arr1 arr2 s1 s2
    (List.replicate (s1 + s2).toNat 0) 0 le_rfl (by omega) (by omega) rfl
  have H2 := concatTail1_char (s1 - (concatLoopBoth arr1 arr2 s1 s2
      (List.replicate (s1 + s2).toNat 0) 0).2).toNat arr1 s1
    (concatLoopBoth arr1 arr2 s1 s2 (List.replicate (s1 + s2).toNat 0) 0).1
    (concatLoopBoth arr1 arr2 s1 s2 (List.replicate (s1 + s2).toNat 0) 0).2
    (by rw [H1.2.1]; omega) (by rw [H1.1]; omega) rfl
  have H3 := concatTail2_char (s2 - (concatTail1 arr1 s1
      (concatLoopBoth arr1 arr2 s1 s2 (List.replicate (s1 + s2).toNat 0) 0).1
      (concatLoopBoth arr1 arr2 s1 s2 (List.replicate (s1 + s2).toNat 0) 0).2).2).toNat
    arr2 s1 s2
    (concatTail1 arr1 s1
      (concatLoopBoth arr1 arr2 s1 s2 (List.replicate (s1 + s2).toNat 0) 0).1
      (concatLoopBoth arr1 arr2 s1 s2 (List.replicate (s1 + s2).toNat 0) 0).2).1
    (concatTail1 arr1 s1
      (concatLoopBoth arr1 arr2 s1 s2 (List.replicate (s1 + s2).toNat 0) 0).1
      (concatLoopBoth arr1 arr2 s1 s2 (List.replicate (s1 + s2).toNat 0) 0).2).2
    (by rw [H2.2.1, H1.2.1]; omega) (by omega) (by rw [H2.1, H1.1]; omega) rfl
  apply eq_of_aget_eq
  · rw [H3.1, H2.1, H1.1, List.length_replicate, List.length_append]
    omega
  · intro x hx0 hxlen
    rw [H3.1, H2.1, H1.1, List.length_replicate] at hxlen
    rw [H3.2 x, H2.2.2 x, H1.2.2 x]
    rw [H2.2.1, H1.2.1]
    have hax : aget (arr1 ++ arr2) x =
        if x < s1 then aget arr1 x else aget arr2 (x - s1) := by
      by_cases hxs : x < s1
      · rw [if_pos hxs]
        exact aget_append_left arr1 arr2 x hx0 (by omega)
      · rw [if_neg hxs]
        have hr := aget_append_right arr1 arr2 x (by omega) hx0
        rw [← hs1] at hr
        exact hr
    rw [hax]
    split_ifs <;> first | rfl | omega


/-! ### C5: getMaxOccurrence -/

theorem maxCountLoop_eq_foldl (arr : List Int) (m : Int) :
    ∀ (fuel : Nat) (i c : Int), 0 ≤ i → arr.length - i.toNat = fuel →
      maxCountLoop arr (arr.length : Int) m i c =
        (arr.drop i.toNat).foldl
          (fun cc x => if m < x then 1 else if x = m then cc + 1 else cc) c := by
  intro fuel
  induction fuel with
  | zero =>
    intro i c h0 hf
    rw [maxCountLoop, if_neg (by omega : ¬ i < (arr.length : Int))]
    rw [List.drop_eq_nil_of_le (by omega), List.foldl_nil]
  | succ f ih =>
    intro i c h0 hf
    have hlt : i.toNat < arr.length := by omega
    have ha : aget arr i = arr[i.toNat] := by
      unfold aget
      rw [if_pos h0]
      exact List.getD_eq_getElem arr 0 hlt
    rw [maxCountLoop, if_pos (by omega : i < (arr.length : Int))]
    rw [List.drop_eq_getElem_cons hlt, List.foldl_cons]
    have h1 : (i + 1).toNat = i.toNat + 1 := by omega
    have := ih (i + 1) (if m < arr[i.toNat] then 1 else if arr[i.toNat] = m then c + 1 else c)
      (by omega) (by omega)
    rw [h1] at this
    rw [ha]
    exact this

theorem foldl_maxcount_closed (a0 : Int) :
    ∀ (t : List Int) (c : Int),
      t.foldl (fun cc x => if a0 < x then 1 else if x = a0 then cc + 1 else cc) c =
        (if t.any (fun x => a0 < x) then 1 else c) +
          ((t.reverse.takeWhile (fun x => x ≤ a0)).count a0 : Int) := by
  intro t
  induction t using List.reverseRecOn with
  | nil =>
    intro c
    simp
  | append_singleton t x ih =>
    intro c
    rw [List.foldl_append, List.foldl_cons, List.foldl_nil]
    rw [List.any_append, List.reverse_append]
    rw [List.reverse_singleton, List.singleton_append, List.takeWhile_cons]
    simp only [List.any_cons, List.any_nil, Bool.or_false]
    rcases lt_trichotomy a0 x with hgt | heq | hlt
    · rw [if_pos hgt]
      rw [if_neg (show ¬ (decide (x ≤ a0) = true) by
        simp only [decide_eq_true_eq]; omega)]
      rw [decide_eq_true hgt, Bool.or_true, if_pos rfl, List.count_nil]
      omega
    · rw [if_neg (show ¬ a0 < x by omega), if_pos heq.symm]
      rw [decide_eq_false (show ¬ a0 < x by omega), Bool.or_false]
      rw [if_pos (decide_eq_true (show x ≤ a0 by omega))]
      rw [List.count_cons]
      rw [show (x == a0) = true from beq_iff_eq.mpr heq.symm, if_pos rfl]
      rw [ih c]
      push_cast
      split_ifs <;> omega
    · rw [if_neg (show ¬ a0 < x by omega), if_neg (show ¬ x = a0 by omega)]
      rw [decide_eq_false (show ¬ a0 < x by omega), Bool.or_false]
      rw [if_pos (decide_eq_true (show x ≤ a0 by omega))]
      rw [List.count_cons]
      rw [show (x == a0) = false from beq_eq_false_iff_ne.mpr (by omega),
        if_neg (show ¬ (false = true) by simp)]
      rw [ih c]
      push_cast
      split_ifs <;> omega

/-- C5 (counterexample): on `[1, 3, 3]` the code returns 1, but under the
claim's reading (running maximum updated to each strictly larger element,
count reset to 1 there and incremented on later ties) the result would be
2 : the final maximum 3 occurs twice.  The code never updates its local
`maximum`, so the tie at the last element is compared against `arr[0] = 1`,
not against 3. -/
theorem MAX_count_counterexample :
    MAX_count [1, 3, 3] 3 = 1 ∧ specMaxCount [1, 3, 3] = 2 := by
  constructor
  · simp [MAX_count, maxCountLoop, aget]
  · decide

/-- C5 (amended): for every non-empty array, `MAX_count` compares every
element against `arr[0]` (its local `maximum` is never updated); the result
is the number of occurrences of `arr[0]` in the part of the tail after the
last element strictly greater than `arr[0]`, plus 1 for that element, or
simply the number of occurrences of `arr[0]` in the whole tail when no
element exceeds `arr[0]`. -/
theorem MAX_count_amended :
    ∀ arr : List Int, arr ≠ [] →
      MAX_count arr (arr.length : Int) = maxCountAmendedSpec arr := by
  intro arr hne
  rw [MAX_count, maxCountLoop_eq_foldl arr (aget arr 0) (arr.length - (1 : Int).toNat) 1 0 (by omega) rfl]
  have ht : arr.drop (1 : Int).toNat = arr.tail := by
    rw [show (1 : Int).toNat = 1 by rfl, List.drop_one]
  rw [ht, foldl_maxcount_closed (aget arr 0) arr.tail 0]
  unfold maxCountAmendedSpec
  have h0 : aget arr 0 = arr.headD 0 := by
    unfold aget
    rw [if_pos le_rfl]
    cases arr with
    | nil => rfl
    | cons a t => rfl
  rw [h0]

/-- Witness for the amended C5 on a concrete input. -/
theorem MAX_count_amended_witness :
    ([1, 3, 3] : List Int) ≠ [] ∧
      MAX_count [1, 3, 3] (([1, 3, 3] : List Int).length : Int) =
        maxCountAmendedSpec [1, 3, 3] :=
  ⟨by decide, MAX_count_amended [1, 3, 3] (by decide)⟩


/-! ### C8: the rolling hash -/

theorem xor_ones (w : Nat) :
    ∀ p : Nat, p < 2 ^ w → p ^^^ (2 ^ w - 1) = 2 ^ w - 1 - p := by
  induction w with
  | zero =>
    intro p hp
    have hp0 : p = 0 := by omega
    subst hp0
    decide
  | succ w ih =>
    intro p hp
    have h2 : 2 ^ (w + 1) = 2 * 2 ^ w := by rw [pow_succ]; ring
    have hpos : 0 < 2 ^ w := Nat.pos_pow_of_pos w (by omega)
    have hq : p >>> 1 = p / 2 := Nat.shiftRight_one p
    have hdecomp : Nat.bit (p.testBit 0) (p >>> 1) = p :=
      Nat.bit_testBit_zero_shiftRight_one p
    have hones : Nat.bit true (2 ^ w - 1) = 2 ^ (w + 1) - 1 := by
      rw [Nat.bit_val]
      simp only [Bool.toNat_true]
      omega
    have hq2 : p / 2 < 2 ^ w := by omega
    have hval := Nat.bit_val (p.testBit 0) (p >>> 1)
    rw [hdecomp] at hval
    calc p ^^^ (2 ^ (w + 1) - 1)
        = Nat.bit (p.testBit 0) (p >>> 1) ^^^ Nat.bit true (2 ^ w - 1) := by
          rw [hdecomp, hones]
      _ = Nat.bit (bne (p.testBit 0) true) ((p >>> 1) ^^^ (2 ^ w - 1)) :=
          Nat.xor_bit _ _ _ _
      _ = 2 ^ (w + 1) - 1 - p := by
          rw [hq, ih (p / 2) hq2, Nat.bit_val]
          rw [hq] at hval
          cases hb : p.testBit 0 <;> rw [hb] at hval <;>
            simp only [Bool.toNat_false, Bool.toNat_true] at hval <;>
            simp only [show (bne false true).toNat = 1 from rfl,
              show (bne true true).toNat = 0 from rfl] <;>
            omega

theorem xor32_asr31 (v : Int) (h1 : -(2 ^ 31) ≤ v) (h2 : v < 2 ^ 31) :
    xor32 v (asr31 v) = if 0 ≤ v then v else -v - 1 := by
  have e31 : (2 : Int) ^ 31 = 2147483648 := by norm_num
  have e32 : (2 : Int) ^ 32 = 4294967296 := by norm_num
  unfold xor32 asr31 toBits32 ofBits32
  by_cases hv : 0 ≤ v
  · rw [if_pos hv]
    have hd : v / 2 ^ 31 = 0 := by rw [e31]; omega
    rw [hd]
    have hm0 : ((0 : Int) % 2 ^ 32).toNat = 0 := by norm_num
    rw [hm0, Nat.xor_zero]
    have hmv : (v % 2 ^ 32).toNat = v.toNat := by rw [e32]; omega
    rw [hmv]
    rw [if_pos (by omega : v.toNat < 2 ^ 31)]
    omega
  · rw [if_neg hv]
    have hd : v / 2 ^ 31 = -1 := by rw [e31]; omega
    rw [hd]
    have hm1 : (((-1 : Int)) % 2 ^ 32).toNat = 2 ^ 32 - 1 := by rw [e32]; omega
    rw [hm1]
    have hmv : (v % 2 ^ 32).toNat = (v + 2 ^ 32).toNat := by rw [e32]; omega
    rw [hmv]
    have hx := xor_ones 32 (v + 2 ^ 32).toNat (by omega)
    simp only [hx]
    split_ifs with hcond <;> omega

theorem hashLoop_eq_foldl (arr : List Int)
    (hrange : ∀ v ∈ arr, -(2 ^ 31) ≤ v ∧ v < 2 ^ 31) :
    ∀ (fuel : Nat) (i : Int) (h : Nat), 0 ≤ i → arr.length - i.toNat = fuel →
      hashLoop arr (arr.length : Int) i h = (arr.drop i.toNat).foldl hashSpecStep h := by
  intro fuel
  induction fuel with
  | zero =>
    intro i h h0 hf
    rw [hashLoop, if_neg (by omega : ¬ i < (arr.length : Int))]
    rw [List.drop_eq_nil_of_le (by omega), List.foldl_nil]
  | succ f ih =>
    intro i h h0 hf
    have hlt : i.toNat < arr.length := by omega
    have ha : aget arr i = arr[i.toNat] := by
      unfold aget
      rw [if_pos h0]
      exact List.getD_eq_getElem arr 0 hlt
    have hmem : arr[i.toNat] ∈ arr := List.getElem_mem hlt
    have hr := hrange _ hmem
    rw [hashLoop, if_pos (by omega : i < (arr.length : Int))]
    rw [List.drop_eq_getElem_cons hlt, List.foldl_cons]
    have h1 : (i + 1).toNat = i.toNat + 1 := by omega
    dsimp only
    rw [ha, xor32_asr31 arr[i.toNat] hr.1 hr.2]
    have hstep :
        ((h * 19 + (((if 0 ≤ arr[i.toNat] then arr[i.toNat] else -arr[i.toNat] - 1) %
            (2 ^ 64 : Int))).toNat) % 2 ^ 64) = hashSpecStep h arr[i.toNat] := by
      unfold hashSpecStep
      by_cases hv : 0 ≤ arr[i.toNat]
      · rw [if_pos hv, if_pos hv]
        congr 2
        have e64 : (2 : Int) ^ 64 = 18446744073709551616 := by norm_num
        have e31 : (2 : Int) ^ 31 = 2147483648 := by norm_num
        rw [e64]
        omega
      · rw [if_neg hv, if_neg hv]
        congr 2
        have e64 : (2 : Int) ^ 64 = 18446744073709551616 := by norm_num
        have e31 : (2 : Int) ^ 31 = 2147483648 := by norm_num
        rw [e64]
        omega
    rw [hstep]
    have := ih (i + 1) (hashSpecStep h arr[i.toNat]) (by omega) (by omega)
    rw [h1] at this
    exact this

/-- C8: for every array of in-range 32-bit values, `getHashCodeOf` computes
the rolling hash `h = 1; h = h * 19 + (v xor (v asr 31))` in a 64-bit
accumulator with wraparound, where the xor term is `v` for non-negative
`v` and `-v - 1` for negative `v`; for `n = 0` it returns the seed 1. -/
theorem getHashCodeOf_eq_hashSpec :
    ∀ l : List Int, (∀ v ∈ l, -(2 ^ 31) ≤ v ∧ v < 2 ^ 31) →
      getHashCodeOf (some l) (l.length : Int) = hashSpec l ∧
      getHashCodeOf (some l) 0 = 1 := by
  intro l hr
  constructor
  · rw [getHashCodeOf, hashSpec]
    have := hashLoop_eq_foldl l hr (l.length - (0 : Int).toNat) 0 1 le_rfl rfl
    rw [this, Int.toNat_zero, List.drop_zero]
  · rw [getHashCodeOf, hashLoop]
    rw [if_neg (by omega : ¬ (0 : Int) < 0)]

/-- Witness for C8 on the concrete array `[5, -7]`. -/
theorem getHashCodeOf_eq_hashSpec_witness :
    (∀ v ∈ ([5, -7] : List Int), -(2 ^ 31) ≤ v ∧ v < 2 ^ 31) ∧
      (getHashCodeOf (some [5, -7]) (([5, -7] : List Int).length : Int) = hashSpec [5, -7] ∧
       getHashCodeOf (some [5, -7]) 0 = 1) :=
  ⟨by decide, getHashCodeOf_eq_hashSpec [5, -7] (by decide)⟩


/-! ### C3: dual-pivot quicksort -/

theorem sortedSeg_mono (a : List Int) (lo hi lo2 hi2 : Int) (h : sortedSeg a lo hi)
    (h1 : lo ≤ lo2) (h2 : hi2 ≤ hi) : sortedSeg a lo2 hi2 :=
  fun i j hi0 hij hjh => h i j (by omega) hij (by omega)

theorem sortedSeg_of_sortedAdj (a : List Int) (lo hi : Int) (h : sortedAdj a lo hi) :
    sortedSeg a lo hi := by
  have key : ∀ (fuel : Nat) (i j : Int), lo ≤ i → i ≤ j → j ≤ hi → (j - i).toNat = fuel →
      aget a i ≤ aget a j := by
    intro fuel
    induction fuel with
    | zero =>
      intro i j h1 h2 h3 hf
      have : i = j := by omega
      rw [this]
    | succ f ih =>
      intro i j h1 h2 h3 hf
      have hij : i < j := by omega
      have step := h i h1 (by omega)
      have rest := ih (i + 1) j (by omega) (by omega) h3 (by omega)
      omega
  intro i j h1 h2 h3
  exact key (j - i).toNat i j h1 h2 h3 rfl

theorem partLoop_sorted (arr : List Int) (low high : Int) (hs : sortedSeg arr low high) :
    ∀ (fuel : Nat) (it lp rp : Int), low ≤ it → rp ≤ high - 1 → (rp + 1 - it).toNat = fuel →
      partLoop arr low high it lp rp = (arr, lp, rp) := by
  intro fuel
  induction fuel with
  | zero =>
    intro it lp rp h1 h2 hf
    rw [partLoop, if_neg (by omega : ¬ it ≤ rp)]
  | succ f ih =>
    intro it lp rp h1 h2 hf
    have hit : it ≤ rp := by omega
    rw [partLoop, if_pos hit]
    rw [if_neg (not_lt.mpr (hs low it le_rfl h1 (by omega)))]
    rw [if_neg (not_lt.mpr (hs it high h1 (by omega) le_rfl))]
    exact ih (it + 1) lp rp (by omega) h2 (by omega)

theorem pivotPartition_sorted (arr : List Int) (low high : Int)
    (hs : sortedSeg arr low high) (hlh : low < high) :
    pivotPartition arr low high = (arr, low, high) := by
  unfold pivotPartition
  rw [if_neg (not_lt.mpr (hs low high le_rfl (by omega) le_rfl))]
  dsimp only
  rw [partLoop_sorted arr low high hs (high - 1 + 1 - (low + 1)).toNat (low + 1) (low + 1)
    (high - 1) (by omega) (by omega) rfl]
  dsimp only
  have e1 : low + 1 - 1 = low := by ring
  have e2 : high - 1 + 1 = high := by ring
  rw [e1, e2, swap_self, swap_self]

theorem dpqs_id_of_sorted :
    ∀ (arr : List Int) (low high : Int), sortedSeg arr low high →
      dualPivotQuickSort arr low high = arr := by
  intro arr low high
  induction arr, low, high using dualPivotQuickSort.induct with
  | case1 arr low high hge =>
    intro hs
    rw [dualPivotQuickSort, if_pos hge]
  | case2 arr low high hlt res a1 a2 ih1 ih2 ih3 ih4 ih5 =>
    intro hs
    have hpp : pivotPartition arr low high = (arr, low, high) :=
      pivotPartition_sorted arr low high hs (by omega)
    rw [dualPivotQuickSort, if_neg hlt, hpp]
    dsimp only
    have e1 : dualPivotQuickSort arr low (low - 1) = arr := by
      rw [dualPivotQuickSort, if_pos (by omega : low ≥ low - 1)]
    rw [e1]
    rw [hpp] at ih4
    dsimp only at ih4
    rw [e1] at ih4
    have e2 : dualPivotQuickSort arr (low + 1) (high - 1) = arr :=
      ih4 (sortedSeg_mono arr low high (low + 1) (high - 1) hs (by omega) (by omega))
    rw [e2]
    rw [dualPivotQuickSort, if_pos (by omega : high + 1 ≥ high)]


theorem aget_swap_char (a : List Int) (i j : Int) (hi0 : 0 ≤ i)
    (hi1 : i < (a.length : Int)) (hj0 : 0 ≤ j) (hj1 : j < (a.length : Int)) (x : Int) :
    aget (swapNumbers a i j) x =
      if x = i then aget a j else if x = j then aget a i else aget a x := by
  by_cases hxi : x = i
  · subst hxi
    rw [if_pos rfl]
    exact aget_swap_left a x j hi0 hi1 hj0 hj1
  · rw [if_neg hxi]
    by_cases hxj : x = j
    · subst hxj
      rw [if_pos rfl]
      exact aget_swap_right a i x hj0 hj1
    · rw [if_neg hxj]
      exact aget_swap_ne a i j x hxi hxj

theorem partLoop_main :
    ∀ (arr : List Int) (low high it lp rp : Int) (a2 : List Int) (l2 r2 : Int),
      partLoop arr low high it lp rp = (a2, l2, r2) →
      low < high → 0 ≤ low → high < (arr.length : Int) →
      low + 1 ≤ lp → lp ≤ it → it ≤ rp + 1 → rp ≤ high - 1 →
      (∀ x : Int, low + 1 ≤ x → x < lp → aget arr x < aget arr low) →
      (∀ x : Int, lp ≤ x → x < it →
        aget arr low ≤ aget arr x ∧ aget arr x ≤ aget arr high) →
      (∀ x : Int, rp < x → x ≤ high - 1 → aget arr high < aget arr x) →
      a2.length = arr.length ∧
      lp ≤ l2 ∧ low + 1 ≤ l2 ∧ l2 ≤ r2 + 1 ∧ r2 ≤ rp ∧
      (∀ x : Int, x ≤ low ∨ high ≤ x → aget a2 x = aget arr x) ∧
      (∀ x : Int, low + 1 ≤ x → x < l2 → aget a2 x < aget arr low) ∧
      (∀ x : Int, l2 ≤ x → x ≤ r2 →
        aget arr low ≤ aget a2 x ∧ aget a2 x ≤ aget arr high) ∧
      (∀ x : Int, r2 < x → x ≤ high - 1 → aget arr high < aget a2 x) ∧
      (∀ P : Int → Prop, (∀ x : Int, low + 1 ≤ x → x ≤ high - 1 → P (aget arr x)) →
        ∀ x : Int, low + 1 ≤ x → x ≤ high - 1 → P (aget a2 x)) := by
  intro arr low high it lp rp
  induction arr, low, high, it, lp, rp using partLoop.induct with
  | case1 arr low high it lp rp hle hlt ih =>
    intro a2 l2 r2 heq hlh h0 hhi hb1 hb2 hb3 hb4 hI2 hI3 hI4
    rw [partLoop, if_pos hle, if_pos hlt] at heq
    have hchar := aget_swap_char arr it lp (by omega) (by omega) (by omega) (by omega)
    have hlow : aget (swapNumbers arr it lp) low = aget arr low := by
      rw [hchar low, if_neg (by omega : ¬ low = it), if_neg (by omega : ¬ low = lp)]
    have hhigh : aget (swapNumbers arr it lp) high = aget arr high := by
      rw [hchar high, if_neg (by omega : ¬ high = it), if_neg (by omega : ¬ high = lp)]
    have hI2n : ∀ x : Int, low + 1 ≤ x → x < lp + 1 →
        aget (swapNumbers arr it lp) x < aget (swapNumbers arr it lp) low := by
      intro x hx1 hx2
      rw [hlow, hchar x]
      by_cases hxit : x = it
      · rw [if_pos hxit]
        have hlpit : lp = it := by omega
        rw [hlpit]
        exact hlt
      · rw [if_neg hxit]
        by_cases hxlp : x = lp
        · rw [if_pos hxlp]
          exact hlt
        · rw [if_neg hxlp]
          exact hI2 x hx1 (by omega)
    have hI3n : ∀ x : Int, lp + 1 ≤ x → x < it + 1 →
        aget (swapNumbers arr it lp) low ≤ aget (swapNumbers arr it lp) x ∧
        aget (swapNumbers arr it lp) x ≤ aget (swapNumbers arr it lp) high := by
      intro x hx1 hx2
      rw [hlow, hhigh, hchar x]
      by_cases hxit : x = it
      · rw [if_pos hxit]
        exact hI3 lp le_rfl (by omega)
      · rw [if_neg hxit, if_neg (by omega : ¬ x = lp)]
        exact hI3 x (by omega) (by omega)
    have hI4n : ∀ x : Int, rp < x → x ≤ high - 1 →
        aget (swapNumbers arr it lp) high < aget (swapNumbers arr it lp) x := by
      intro x hx1 hx2
      rw [hhigh, hchar x, if_neg (by omega : ¬ x = it), if_neg (by omega : ¬ x = lp)]
      exact hI4 x hx1 hx2
    obtain ⟨K1, K2, K3, K4, K5, K6, K7, K8, K9, K10⟩ :=
      ih a2 l2 r2 heq hlh h0 (by rw [length_swap]; exact hhi)
        (by omega) (by omega) (by omega) hb4 hI2n hI3n hI4n
    rw [hlow] at K7
    rw [hlow, hhigh] at K8
    rw [hhigh] at K9
    refine ⟨by rw [K1, length_swap], by omega, K3, K4, K5, ?_, K7, K8, K9, ?_⟩
    · intro x hx
      rw [K6 x hx, hchar x, if_neg (by omega : ¬ x = it), if_neg (by omega : ¬ x = lp)]
    · intro P hP
      apply K10 P
      intro x hx1 hx2
      rw [hchar x]
      by_cases hxit : x = it
      · rw [if_pos hxit]
        exact hP lp (by omega) (by omega)
      · rw [if_neg hxit]
        by_cases hxlp : x = lp
        · rw [if_pos hxlp]
          exact hP it (by omega) (by omega)
        · rw [if_neg hxlp]
          exact hP x hx1 hx2
  | case2 arr low high it lp rp hle hge hgt ih =>
    intro a2 l2 r2 heq hlh h0 hhi hb1 hb2 hb3 hb4 hI2 hI3 hI4
    rw [partLoop, if_pos hle, if_neg hge, if_pos hgt] at heq
    have hchar := aget_swap_char arr it rp (by omega) (by omega) (by omega) (by omega)
    have hlow : aget (swapNumbers arr it rp) low = aget arr low := by
      rw [hchar low, if_neg (by omega : ¬ low = it), if_neg (by omega : ¬ low = rp)]
    have hhigh : aget (swapNumbers arr it rp) high = aget arr high := by
      rw [hchar high, if_neg (by omega : ¬ high = it), if_neg (by omega : ¬ high = rp)]
    have hI2n : ∀ x : Int, low + 1 ≤ x → x < lp →
        aget (swapNumbers arr it rp) x < aget (swapNumbers arr it rp) low := by
      intro x hx1 hx2
      rw [hlow, hchar x, if_neg (by omega : ¬ x = it), if_neg (by omega : ¬ x = rp)]
      exact hI2 x hx1 hx2
    have hI3n : ∀ x : Int, lp ≤ x → x < it →
        aget (swapNumbers arr it rp) low ≤ aget (swapNumbers arr it rp) x ∧
        aget (swapNumbers arr it rp) x ≤ aget (swapNumbers arr it rp) high := by
      intro x hx1 hx2
      rw [hlow, hhigh, hchar x, if_neg (by omega : ¬ x = it), if_neg (by omega : ¬ x = rp)]
      exact hI3 x hx1 hx2
    have hI4n : ∀ x : Int, rp - 1 < x → x ≤ high - 1 →
        aget (swapNumbers arr it rp) high < aget (swapNumbers arr it rp) x := by
      intro x hx1 hx2
      rw [hhigh, hchar x]
      by_cases hxit : x = it
      · rw [if_pos hxit]
        have hitrp : rp = it := by omega
        rw [hitrp]
        exact hgt
      · rw [if_neg hxit]
        by_cases hxrp : x = rp
        · rw [if_pos hxrp]
          exact hgt
        · rw [if_neg hxrp]
          exact hI4 x (by omega) hx2
    obtain ⟨K1, K2, K3, K4, K5, K6, K7, K8, K9, K10⟩ :=
      ih a2 l2 r2 heq hlh h0 (by rw [length_swap]; exact hhi)
        hb1 hb2 (by omega) (by omega) hI2n hI3n hI4n
    rw [hlow] at K7
    rw [hlow, hhigh] at K8
    rw [hhigh] at K9
    refine ⟨by rw [K1, length_swap], K2, K3, K4, by omega, ?_, K7, K8, K9, ?_⟩
    · intro x hx
      rw [K6 x hx, hchar x, if_neg (by omega : ¬ x = it), if_neg (by omega : ¬ x = rp)]
    · intro P hP
      apply K10 P
      intro x hx1 hx2
      rw [hchar x]
      by_cases hxit : x = it
      · rw [if_pos hxit]
        exact hP rp (by omega) (by omega)
      · rw [if_neg hxit]
        by_cases hxrp : x = rp
        · rw [if_pos hxrp]
          exact hP it (by omega) (by omega)
        · rw [if_neg hxrp]
          exact hP x hx1 hx2
  | case3 arr low high it lp rp hle hge hng ih =>
    intro a2 l2 r2 heq hlh h0 hhi hb1 hb2 hb3 hb4 hI2 hI3 hI4
    rw [partLoop, if_pos hle, if_neg hge, if_neg hng] at heq
    have hI3n : ∀ x : Int, lp ≤ x → x < it + 1 →
        aget arr low ≤ aget arr x ∧ aget arr x ≤ aget arr high := by
      intro x hx1 hx2
      by_cases hxit : x = it
      · subst hxit
        exact ⟨not_lt.mp hge, not_lt.mp hng⟩
      · exact hI3 x hx1 (by omega)
    exact ih a2 l2 r2 heq hlh h0 hhi hb1 (by omega) (by omega) hb4 hI2 hI3n hI4
  | case4 arr low high it lp rp hnle =>
    intro a2 l2 r2 heq hlh h0 hhi hb1 hb2 hb3 hb4 hI2 hI3 hI4
    rw [partLoop, if_neg hnle] at heq
    obtain ⟨h1, h2, h3⟩ : arr = a2 ∧ lp = l2 ∧ rp = r2 := by
      simpa [Prod.ext_iff] using heq
    subst h1
    subst h2
    subst h3
    refine ⟨rfl, le_rfl, hb1, by omega, le_rfl, fun x hx => rfl, hI2, ?_, hI4, ?_⟩
    · intro x hx1 hx2
      exact hI3 x hx1 (by omega)
    · intro P hP x hx1 hx2
      exact hP x hx1 hx2


theorem pivotPartition_post (arr : List Int) (low high : Int)
    (hlh : low < high) (h0 : 0 ≤ low) (hhi : high < (arr.length : Int)) :
    ∀ (a2 : List Int) (l r : Int), pivotPartition arr low high = (a2, l, r) →
      a2.length = arr.length ∧
      low ≤ l ∧ l < r ∧ r ≤ high ∧
      (∀ x : Int, x < low ∨ high < x → aget a2 x = aget arr x) ∧
      (∀ x : Int, low ≤ x → x < l → aget a2 x < aget a2 l) ∧
      (∀ x : Int, l < x → x < r → aget a2 l ≤ aget a2 x ∧ aget a2 x ≤ aget a2 r) ∧
      (∀ x : Int, r < x → x ≤ high → aget a2 r < aget a2 x) ∧
      aget a2 l ≤ aget a2 r ∧
      (∀ P : Int → Prop, (∀ x : Int, low ≤ x → x ≤ high → P (aget arr x)) →
        ∀ x : Int, low ≤ x → x ≤ high → P (aget a2 x)) := by
  intro a2 l r heq
  unfold pivotPartition at heq
  dsimp only at heq
  set arr0 := if aget arr high < aget arr low then swapNumbers arr low high else arr
    with harr0
  have hlen0 : arr0.length = arr.length := by
    rw [harr0]
    split
    · exact length_swap arr low high
    · rfl
  have hhi0 : high < (arr0.length : Int) := by rw [hlen0]; exact hhi
  have hpq0 : aget arr0 low ≤ aget arr0 high := by
    rw [harr0]
    split
    · next hc =>
      rw [aget_swap_left arr low high h0 (by omega) (by omega) (by omega),
        aget_swap_right arr low high (by omega) (by omega)]
      omega
    · next hc => exact not_lt.mp hc
  have hframe0 : ∀ x : Int, x ≠ low → x ≠ high → aget arr0 x = aget arr x := by
    intro x hx1 hx2
    rw [harr0]
    split
    · exact aget_swap_ne arr low high x hx1 hx2
    · rfl
  have hP0 : ∀ P : Int → Prop, (∀ x : Int, low ≤ x → x ≤ high → P (aget arr x)) →
      ∀ x : Int, low ≤ x → x ≤ high → P (aget arr0 x) := by
    intro P hP x hx1 hx2
    rw [harr0]
    split
    · rw [aget_swap_char arr low high h0 (by omega) (by omega) (by omega) x]
      by_cases hxl : x = low
      · rw [if_pos hxl]
        exact hP high (by omega) le_rfl
      · rw [if_neg hxl]
        by_cases hxh : x = high
        · rw [if_pos hxh]
          exact hP low le_rfl (by omega)
        · rw [if_neg hxh]
          exact hP x hx1 hx2
    · exact hP x hx1 hx2
  set t := partLoop arr0 low high (low + 1) (low + 1) (high - 1) with ht
  obtain ⟨L1, L2, L3, L4, L5, L6, L7, L8, L9, L10⟩ :=
    partLoop_main arr0 low high (low + 1) (low + 1) (high - 1) t.1 t.2.1 t.2.2
      (by rw [← ht]) hlh h0 hhi0 le_rfl le_rfl (by omega) le_rfl
      (by intro x hx1 hx2; omega) (by intro x hx1 hx2; omega)
      (by intro x hx1 hx2; omega)
  obtain ⟨ea, el, er⟩ :
      swapNumbers (swapNumbers t.1 low (t.2.1 - 1)) high (t.2.2 + 1) = a2 ∧
      t.2.1 - 1 = l ∧ t.2.2 + 1 = r := by
    simpa [Prod.ext_iff] using heq
  subst el
  subst er
  subst ea
  have hlen1 : ((swapNumbers t.1 low (t.2.1 - 1)).length : Int) = (arr.length : Int) := by
    rw [length_swap, L1, hlen0]
  have hlent : (t.1.length : Int) = (arr.length : Int) := by rw [L1, hlen0]
  have hchar1 := aget_swap_char t.1 low (t.2.1 - 1) h0 (by omega) (by omega) (by omega)
  have hchar2 := aget_swap_char (swapNumbers t.1 low (t.2.1 - 1)) high (t.2.2 + 1)
    (by omega) (by omega) (by omega) (by omega)
  have hp : aget t.1 low = aget arr0 low := L6 low (Or.inl le_rfl)
  have hq : aget t.1 high = aget arr0 high := L6 high (Or.inr le_rfl)
  have f_l : aget (swapNumbers (swapNumbers t.1 low (t.2.1 - 1)) high (t.2.2 + 1))
      (t.2.1 - 1) = aget arr0 low := by
    rw [hchar2 (t.2.1 - 1), if_neg (by omega : ¬ t.2.1 - 1 = high),
      if_neg (by omega : ¬ t.2.1 - 1 = t.2.2 + 1), hchar1 (t.2.1 - 1)]
    by_cases hL : t.2.1 - 1 = low
    · rw [if_pos hL, hL, hp]
    · rw [if_neg hL, if_pos rfl, hp]
  have f_r : aget (swapNumbers (swapNumbers t.1 low (t.2.1 - 1)) high (t.2.2 + 1))
      (t.2.2 + 1) = aget arr0 high := by
    rw [hchar2 (t.2.2 + 1)]
    by_cases hR : t.2.2 + 1 = high
    · rw [if_pos hR, hchar1 (t.2.2 + 1),
        if_neg (by omega : ¬ t.2.2 + 1 = low),
        if_neg (by omega : ¬ t.2.2 + 1 = t.2.1 - 1), hR, hq]
    · rw [if_neg hR, if_pos rfl, hchar1 high,
        if_neg (by omega : ¬ high = low),
        if_neg (by omega : ¬ high = t.2.1 - 1), hq]
  refine ⟨by rw [length_swap, length_swap, L1, hlen0], by omega, by omega, by omega,
    ?_, ?_, ?_, ?_, ?_, ?_⟩
  · -- frame outside [low, high]
    intro x hx
    rw [hchar2 x, if_neg (by omega : ¬ x = high), if_neg (by omega : ¬ x = t.2.2 + 1),
      hchar1 x, if_neg (by omega : ¬ x = low), if_neg (by omega : ¬ x = t.2.1 - 1)]
    rw [L6 x (by omega)]
    exact hframe0 x (by omega) (by omega)
  · -- left region
    intro x hx1 hx2
    rw [f_l]
    rw [hchar2 x, if_neg (by omega : ¬ x = high), if_neg (by omega : ¬ x = t.2.2 + 1),
      hchar1 x]
    by_cases hxl : x = low
    · rw [if_pos hxl]
      exact L7 (t.2.1 - 1) (by omega) (by omega)
    · rw [if_neg hxl, if_neg (by omega : ¬ x = t.2.1 - 1)]
      exact L7 x (by omega) (by omega)
  · -- middle region
    intro x hx1 hx2
    rw [f_l, f_r]
    rw [hchar2 x, if_neg (by omega : ¬ x = high), if_neg (by omega : ¬ x = t.2.2 + 1),
      hchar1 x, if_neg (by omega : ¬ x = low), if_neg (by omega : ¬ x = t.2.1 - 1)]
    exact L8 x (by omega) (by omega)
  · -- right region
    intro x hx1 hx2
    rw [f_r]
    rw [hchar2 x]
    by_cases hxh : x = high
    · rw [if_pos hxh, hchar1 (t.2.2 + 1),
        if_neg (by omega : ¬ t.2.2 + 1 = low),
        if_neg (by omega : ¬ t.2.2 + 1 = t.2.1 - 1)]
      exact L9 (t.2.2 + 1) (by omega) (by omega)
    · rw [if_neg hxh, if_neg (by omega : ¬ x = t.2.2 + 1),
        hchar1 x, if_neg (by omega : ¬ x = low), if_neg (by omega : ¬ x = t.2.1 - 1)]
      exact L9 x (by omega) (by omega)
  · rw [f_l, f_r]
    exact hpq0
  · -- value closure on [low, high]
    intro P hP x hx1 hx2
    have hPt : ∀ y : Int, low ≤ y → y ≤ high → P (aget t.1 y) := by
      intro y hy1 hy2
      by_cases hyl : y = low
      · rw [hyl, hp]
        exact hP0 P hP low le_rfl (by omega)
      · by_cases hyh : y = high
        · rw [hyh, hq]
          exact hP0 P hP high (by omega) le_rfl
        · exact L10 P (fun z hz1 hz2 => hP0 P hP z (by omega) (by omega)) y
            (by omega) (by omega)
    have hPs1 : ∀ y : Int, low ≤ y → y ≤ high →
        P (aget (swapNumbers t.1 low (t.2.1 - 1)) y) := by
      intro y hy1 hy2
      rw [hchar1 y]
      by_cases hyl : y = low
      · rw [if_pos hyl]
        exact hPt (t.2.1 - 1) (by omega) (by omega)
      · rw [if_neg hyl]
        by_cases hyL : y = t.2.1 - 1
        · rw [if_pos hyL]
          exact hPt low le_rfl (by omega)
        · rw [if_neg hyL]
          exact hPt y hy1 hy2
    rw [hchar2 x]
    by_cases hxh : x = high
    · rw [if_pos hxh]
      exact hPs1 (t.2.2 + 1) (by omega) (by omega)
    · rw [if_neg hxh]
      by_cases hxR : x = t.2.2 + 1
      · rw [if_pos hxR]
        exact hPs1 high (by omega) le_rfl
      · rw [if_neg hxR]
        exact hPs1 x hx1 hx2


theorem dpqs_all :
    ∀ (arr : List Int) (low high : Int),
      (low < high → 0 ≤ low ∧ high < (arr.length : Int)) →
      (dualPivotQuickSort arr low high).length = arr.length ∧
      (∀ x : Int, x < low ∨ high < x →
        aget (dualPivotQuickSort arr low high) x = aget arr x) ∧
      (∀ P : Int → Prop, (∀ x : Int, low ≤ x → x ≤ high → P (aget arr x)) →
        ∀ x : Int, low ≤ x → x ≤ high → P (aget (dualPivotQuickSort arr low high) x)) ∧
      sortedAdj (dualPivotQuickSort arr low high) low high := by
  intro arr low high
  induction arr, low, high using dualPivotQuickSort.induct with
  | case1 arr low high hge =>
    intro hwf
    rw [dualPivotQuickSort, if_pos hge]
    refine ⟨rfl, fun x hx => rfl, fun P hP x h1 h2 => hP x h1 h2, ?_⟩
    intro x h1 h2
    omega
  | case2 arr low high hlt res0 a10 a20 ih1 ih2 ih3 ih4 ih5 =>
    intro hwf
    obtain ⟨hl0, hhi⟩ := hwf (by omega)
    obtain ⟨P1, P2, P3, P4, P5, P6, P7, P8, P9, P10⟩ :=
      pivotPartition_post arr low high (by omega) hl0 hhi
        (pivotPartition arr low high).1 (pivotPartition arr low high).2.1
        (pivotPartition arr low high).2.2 rfl
    set A1 := (pivotPartition arr low high).1 with hA1
    set l := (pivotPartition arr low high).2.1 with hl
    set r := (pivotPartition arr low high).2.2 with hr
    have hlenA1 : (A1.length : Int) = (arr.length : Int) := by rw [P1]
    have hwfB : low < l - 1 → 0 ≤ low ∧ l - 1 < (A1.length : Int) := by
      intro h
      exact ⟨hl0, by rw [hlenA1]; omega⟩
    obtain ⟨B1, B2, B3, B4⟩ := ih2 hwfB
    set B := dualPivotQuickSort A1 low (l - 1) with hB
    have hlenB : (B.length : Int) = (arr.length : Int) := by rw [B1, P1]
    have hwfC : l + 1 < r - 1 → 0 ≤ l + 1 ∧ r - 1 < (B.length : Int) := by
      intro h
      exact ⟨by omega, by rw [hlenB]; omega⟩
    obtain ⟨C1, C2, C3, C4⟩ := ih4 hwfC
    set C := dualPivotQuickSort B (l + 1) (r - 1) with hC
    have hlenC : (C.length : Int) = (arr.length : Int) := by rw [C1, B1, P1]
    have ih5e : (r + 1 < high → 0 ≤ r + 1 ∧ high < (C.length : Int)) →
        (dualPivotQuickSort C (r + 1) high).length = C.length ∧
        (∀ x : Int, x < r + 1 ∨ high < x →
          aget (dualPivotQuickSort C (r + 1) high) x = aget C x) ∧
        (∀ P : Int → Prop, (∀ x : Int, r + 1 ≤ x → x ≤ high → P (aget C x)) →
          ∀ x : Int, r + 1 ≤ x → x ≤ high →
            P (aget (dualPivotQuickSort C (r + 1) high) x)) ∧
        sortedAdj (dualPivotQuickSort C (r + 1) high) (r + 1) high := ih5
    have hwfD : r + 1 < high → 0 ≤ r + 1 ∧ high < (C.length : Int) := by
      intro h
      exact ⟨by omega, by rw [hlenC]; omega⟩
    obtain ⟨D1, D2, D3, D4⟩ := ih5e hwfD
    set D := dualPivotQuickSort C (r + 1) high with hD
    have hmain : dualPivotQuickSort arr low high = D := by
      rw [dualPivotQuickSort, if_neg hlt]
    -- value transport to the final array
    have tD_low : ∀ x : Int, low ≤ x → x ≤ l - 1 → aget D x = aget B x := by
      intro x h1 h2
      rw [D2 x (by omega), C2 x (by omega)]
    have tD_l : aget D l = aget A1 l := by
      rw [D2 l (by omega), C2 l (by omega), B2 l (by omega)]
    have tD_mid : ∀ x : Int, l + 1 ≤ x → x ≤ r - 1 → aget D x = aget C x := by
      intro x h1 h2
      exact D2 x (by omega)
    have tD_r : aget D r = aget A1 r := by
      rw [D2 r (by omega), C2 r (by omega), B2 r (by omega)]
    have tB_mid : ∀ x : Int, l + 1 ≤ x → x ≤ r - 1 → aget B x = aget A1 x := by
      intro x h1 h2
      exact B2 x (by omega)
    have tC_right : ∀ x : Int, r + 1 ≤ x → x ≤ high → aget C x = aget A1 x := by
      intro x h1 h2
      rw [C2 x (by omega), B2 x (by omega)]
    -- region bounds on the final array
    have vleft : ∀ x : Int, low ≤ x → x ≤ l - 1 → aget D x < aget A1 l := by
      intro x h1 h2
      rw [tD_low x h1 h2]
      exact B3 (fun v => v < aget A1 l) (fun y hy1 hy2 => P6 y hy1 (by omega)) x h1 h2
    have vmid : ∀ x : Int, l + 1 ≤ x → x ≤ r - 1 →
        aget A1 l ≤ aget D x ∧ aget D x ≤ aget A1 r := by
      intro x h1 h2
      rw [tD_mid x h1 h2]
      exact C3 (fun v => aget A1 l ≤ v ∧ v ≤ aget A1 r)
        (fun y hy1 hy2 => by rw [tB_mid y hy1 hy2]; exact P7 y (by omega) (by omega))
        x h1 h2
    have vright : ∀ x : Int, r + 1 ≤ x → x ≤ high → aget A1 r < aget D x := by
      intro x h1 h2
      exact D3 (fun v => aget A1 r < v)
        (fun y hy1 hy2 => by rw [tC_right y hy1 hy2]; exact P8 y (by omega) hy2)
        x h1 h2
    rw [hmain]
    refine ⟨by rw [D1, C1, B1, P1], ?_, ?_, ?_⟩
    · -- frame
      intro x hx
      rw [D2 x (by omega), C2 x (by omega), B2 x (by omega), P5 x (by omega)]
    · -- value closure
      intro P hP x hx1 hx2
      have hA : ∀ y : Int, low ≤ y → y ≤ high → P (aget A1 y) := P10 P hP
      have hBv : ∀ y : Int, low ≤ y → y ≤ high → P (aget B y) := by
        intro y hy1 hy2
        by_cases hy : y ≤ l - 1
        · exact B3 P (fun z hz1 hz2 => hA z hz1 (by omega)) y hy1 hy
        · rw [B2 y (by omega)]
          exact hA y hy1 hy2
      have hCv : ∀ y : Int, low ≤ y → y ≤ high → P (aget C y) := by
        intro y hy1 hy2
        by_cases hy : l + 1 ≤ y ∧ y ≤ r - 1
        · exact C3 P (fun z hz1 hz2 => hBv z (by omega) (by omega)) y hy.1 hy.2
        · rw [C2 y (by omega)]
          exact hBv y hy1 hy2
      by_cases hx : r + 1 ≤ x
      · exact D3 P (fun z hz1 hz2 => hCv z (by omega) hz2) x hx hx2
      · rw [D2 x (by omega)]
        exact hCv x hx1 hx2
    · -- sortedness of adjacent pairs
      intro x hx1 hx2
      by_cases c1 : x + 1 ≤ l - 1
      · have hs := B4 x hx1 (by omega)
        rw [tD_low x hx1 (by omega), tD_low (x + 1) (by omega) (by omega)] at *
        exact hs
      · by_cases c2 : x + 1 = l
        · rw [c2, tD_l]
          exact le_of_lt (vleft x hx1 (by omega))
        · by_cases c3 : x = l
          · rw [c3, tD_l]
            by_cases c3b : l + 1 ≤ r - 1
            · exact (vmid (l + 1) le_rfl c3b).1
            · have hlr : l + 1 = r := by omega
              rw [hlr, tD_r]
              exact P9
          · by_cases c4 : x + 1 ≤ r - 1
            · have hs := C4 x (by omega) (by omega)
              rw [tD_mid x (by omega) (by omega), tD_mid (x + 1) (by omega) c4] at *
              exact hs
            · by_cases c5 : x + 1 = r
              · rw [c5, tD_r]
                exact (vmid x (by omega) (by omega)).2
              · by_cases c6 : x = r
                · rw [c6, tD_r]
                  exact le_of_lt (vright (r + 1) le_rfl (by omega))
                · exact D4 x (by omega) hx2


theorem checkForSortLoop_iff (arr : List Int) (n : Int) :
    ∀ (fuel : Nat) (i : Int), 1 ≤ i → (n - i).toNat = fuel →
      (checkForSortLoop arr n i = true ↔
        ∀ x : Int, i ≤ x → x < n → aget arr (x - 1) ≤ aget arr x) := by
  intro fuel
  induction fuel with
  | zero =>
    intro i h1 hf
    rw [checkForSortLoop, if_neg (by omega : ¬ i < n)]
    constructor
    · intro _ x hx1 hx2
      omega
    · intro _
      rfl
  | succ f ih =>
    intro i h1 hf
    have hin : i < n := by omega
    rw [checkForSortLoop, if_pos hin]
    by_cases hbad : aget arr i < aget arr (i - 1)
    · rw [if_pos hbad]
      constructor
      · intro hfalse
        exact absurd hfalse Bool.false_ne_true
      · intro hall
        have := hall i le_rfl hin
        omega
    · rw [if_neg hbad]
      rw [ih (i + 1) (by omega) (by omega)]
      constructor
      · intro hall x hx1 hx2
        by_cases hxi : x = i
        · rw [hxi]
          omega
        · exact hall x (by omega) hx2
      · intro hall x hx1 hx2
        exact hall x (by omega) hx2

theorem checkForSort_iff_sortedAdj (arr : List Int) (n : Int) :
    checkForSort arr n = true ↔ sortedAdj arr 0 (n - 1) := by
  rw [checkForSort, checkForSortLoop_iff arr n (n - 1).toNat 1 le_rfl rfl]
  constructor
  · intro h x hx1 hx2
    have hstep := h (x + 1) (by omega) (by omega)
    have e : x + 1 - 1 = x := by ring
    rw [e] at hstep
    exact hstep
  · intro h x hx1 hx2
    have hstep := h (x - 1) (by omega) (by omega)
    have e : x - 1 + 1 = x := by ring
    rw [e] at hstep
    exact hstep

/-- C3: for every array `A` of length `n`, `checkForSort A n` (the table's
`isSorted`) returns true exactly when sorting a copy of `A` with
`dualPivotQuickSort A 0 (n - 1)` produces an array element-wise equal to
`A`. -/
theorem checkForSort_iff_sort_fixes :
    ∀ A : List Int, checkForSort A (A.length : Int) = true ↔
      dualPivotQuickSort A 0 ((A.length : Int) - 1) = A := by
  intro A
  constructor
  · intro h
    apply dpqs_id_of_sorted
    apply sortedSeg_of_sortedAdj
    exact (checkForSort_iff_sortedAdj A (A.length : Int)).mp h
  · intro h
    rw [checkForSort_iff_sortedAdj]
    have hs := (dpqs_all A 0 ((A.length : Int) - 1) (fun hlh => ⟨le_rfl, by omega⟩)).2.2.2
    rw [h] at hs
    exact hs

end ArraysUtil

